import Mathlib

/-!
Shallow embedding of `convert-services.py`, a regex-driven script that
rewrites JavaScript service files from individual `export function` /
`export async function` declarations into a single exported object literal.

Python strings are modelled as `List Char`; the handful of regular
expressions the script uses are small enough to be embedded as explicit
scanning functions with Python `re` semantics (MULTILINE `^` anchors,
greedy `\s+` / `\w+` runs, non-overlapping left-to-right scanning, and
`re.split` interleaving capture groups — `None` for a group that did not
participate — into its result list).  The `AttributeError` that Python
raises when `None.strip()` is evaluated is modelled with `Except`.
-/

namespace ConvertServices

/-- Python `\s` on ASCII text: space, tab, newline, carriage return,
vertical tab, form feed. -/
def isPySpace (c : Char) : Bool :=
  c = ' ' || c = '\t' || c = '\n' || c = '\r' || c = '\x0b' || c = '\x0c'

/-- Python `\w` on ASCII text: letters, digits, underscore. -/
def isWordChar (c : Char) : Bool :=
  c.isAlpha || c.isDigit || c = '_'

/-- Match a literal character sequence at the front of a string, returning
the rest on success. -/
def lit : List Char → List Char → Option (List Char)
  | [], s => some s
  | _ :: _, [] => none
  | c :: cs, d :: ds => if d = c then lit cs ds else none

/-- Greedy `\s+`: one or more whitespace characters, maximal munch.
Returns the consumed run and the rest. -/
def spaces1 (s : List Char) : Option (List Char × List Char) :=
  match s with
  | [] => none
  | c :: cs =>
    if isPySpace c then some (c :: cs.takeWhile isPySpace, cs.dropWhile isPySpace)
    else none

/-- The capture group `(async\s+)`: literal `async` followed by `\s+`.
Returns the captured text and the rest. -/
def matchAsyncGroup (s : List Char) : Option (List Char × List Char) :=
  match lit "async".data s with
  | some r =>
    match spaces1 r with
    | some (sp, r2) => some ("async".data ++ sp, r2)
    | none => none
  | none => none

/-- `function\s+(\w+)\s*\(`: the function keyword, whitespace, a captured
identifier, optional whitespace, an opening parenthesis.  Returns the
captured name and the rest after the parenthesis. -/
def matchFromFunction (s : List Char) : Option (List Char × List Char) :=
  match lit "function".data s with
  | some r1 =>
    match spaces1 r1 with
    | some (_, r2) =>
      let name := r2.takeWhile isWordChar
      if name.isEmpty then none
      else
        match (r2.dropWhile isWordChar).dropWhile isPySpace with
        | '(' :: r5 => some (name, r5)
        | _ => none
    | none => none
  | none => none

/-- `export\s+(async\s+)?function\s+(\w+)\s*\(` matched at the current
position (`^` is handled by the caller).  Returns the async capture group
(`none` when it did not participate), the function name, and the rest.
The regex engine's backtracking on the optional group is made explicit:
if the group matched but the remainder fails, try without the group. -/
def matchExportTail (s : List Char) : Option (Option (List Char) × List Char × List Char) :=
  match lit "export".data s with
  | none => none
  | some r1 =>
    match spaces1 r1 with
    | none => none
    | some (_, r2) =>
      match matchAsyncGroup r2 with
      | some (g, r3) =>
        match matchFromFunction r3 with
        | some (name, r4) => some (some g, name, r4)
        | none =>
          match matchFromFunction r2 with
          | some (name, r4) => some (none, name, r4)
          | none => none
      | none =>
        match matchFromFunction r2 with
        | some (name, r4) => some (none, name, r4)
        | none => none

/-- `export\s+` matched at the current position (used by the MULTILINE
substitution `re.sub(r'^export\s+', '', ...)`).  Returns the whitespace
run that was consumed (needed to know whether the position after the
match is a line start) and the rest. -/
def matchExportSp (s : List Char) : Option (List Char × List Char) :=
  match lit "export".data s with
  | some r =>
    match spaces1 r with
    | some (sp, rest) => some (sp, rest)
    | none => none
  | none => none

/-- The lookahead `(?=export\s+(async\s+)?function)` of the split pattern.
On success returns the value of the capture group (`none` when the group
did not participate, mirroring Python's `None`). -/
def lookaheadSplit (s : List Char) : Option (Option (List Char)) :=
  match lit "export".data s with
  | none => none
  | some r1 =>
    match spaces1 r1 with
    | none => none
    | some (_, r2) =>
      match matchAsyncGroup r2 with
      | some (g, r3) =>
        match lit "function".data r3 with
        | some _ => some (some g)
        | none =>
          match lit "function".data r2 with
          | some _ => some none
          | none => none
      | none =>
        match lit "function".data r2 with
        | some _ => some none
        | none => none

/-- `(async\s+)?function\s+(\w+)\s*\(` matched at the current position,
with the replacement template `\1\2(` already applied: returns the
replacement text and the rest after the match. -/
def matchFuncSig (s : List Char) : Option (List Char × List Char) :=
  match matchAsyncGroup s with
  | some (g, r1) =>
    match matchFromFunction r1 with
    | some (name, rest) => some (g ++ name ++ ['('], rest)
    | none =>
      match matchFromFunction s with
      | some (name, rest) => some (name ++ ['('], rest)
      | none => none
  | none =>
    match matchFromFunction s with
    | some (name, rest) => some (name ++ ['('], rest)
    | none => none

/-- Left-to-right non-overlapping scan of the MULTILINE-anchored export
pattern, as used by both `re.findall` and `re.search`.  `atStart` tracks
whether the current position is the start of the string or follows a
newline; after a match the scan resumes at the match end (which follows
`'('`, never a newline).  The fuel is the remaining string length plus
one; every step consumes at least one character. -/
def scanAux : Nat → List Char → Nat → Bool → List (Nat × Option (List Char) × List Char)
  | 0, _, _, _ => []
  | _ + 1, [], _, _ => []
  | fuel + 1, c :: cs, pos, atStart =>
    if atStart then
      match matchExportTail (c :: cs) with
      | some (g, name, rest) =>
        (pos, g, name) :: scanAux fuel rest (pos + ((c :: cs).length - rest.length)) false
      | none => scanAux fuel cs (pos + 1) (c = '\n')
    else scanAux fuel cs (pos + 1) (c = '\n')

/-- All matches of the export pattern in the content, with positions. -/
def scanExports (content : List Char) : List (Nat × Option (List Char) × List Char) :=
  scanAux (content.length + 1) content 0 true

/-- `re.findall(export_pattern, content, re.MULTILINE)`: the list of
(async-group, name) capture pairs. -/
def findallExport (content : List Char) : List (Option (List Char) × List Char) :=
  (scanExports content).map (fun m => m.2)

/-- `re.search(export_pattern, content, re.MULTILINE).start()`: the start
offset of the first match, if any. -/
def searchExportStart (content : List Char) : Option Nat :=
  ((scanExports content).head?).map (fun m => m.1)

/-- `re.split(r'\n(?=export\s+(async\s+)?function)', s)`, in structured
form: the piece before the first split point, and for every split point
the value of the capture group together with the following piece.
Recursion is structural on the string: a split consumes only the newline
and continues on the rest. -/
def splitAux : List Char → List Char → List Char × List (Option (List Char) × List Char)
  | [], acc => (acc.reverse, [])
  | c :: cs, acc =>
    if c = '\n' then
      match lookaheadSplit cs with
      | some g =>
        let r := splitAux cs []
        (acc.reverse, (g, r.1) :: r.2)
      | none => splitAux cs (c :: acc)
    else splitAux cs (c :: acc)

/-- Flatten the structured split back into Python's actual return value:
`[piece0, group1, piece1, group2, piece2, ...]`, where a `none` entry is
Python's `None` for a capture group that did not participate. -/
def splitItems : List (Option (List Char) × List Char) → List (Option (List Char))
  | [] => []
  | gp :: rest => gp.1 :: some gp.2 :: splitItems rest

/-- Python `str.rstrip()`: remove trailing whitespace. -/
def pyRstripList (s : List Char) : List Char :=
  (s.reverse.dropWhile isPySpace).reverse

/-- One pass of `re.sub(r'^export\s+', '', block, flags=re.MULTILINE)`:
at each line start try the pattern; on a match drop the matched span and
resume after it (a line start again only if the consumed whitespace ended
with a newline).  Fuel is string length plus one. -/
def subExportAux : Nat → List Char → Bool → List Char
  | 0, s, _ => s
  | _ + 1, [], _ => []
  | fuel + 1, c :: cs, atStart =>
    if atStart then
      match matchExportSp (c :: cs) with
      | some (sp, rest) => subExportAux fuel rest (sp.getLast? = some '\n')
      | none => c :: subExportAux fuel cs (c = '\n')
    else c :: subExportAux fuel cs (c = '\n')

/-- `re.sub(r'^export\s+', '', block, flags=re.MULTILINE)`. -/
def subExport (s : List Char) : List Char :=
  subExportAux (s.length + 1) s true

/-- One pass of
`re.sub(r'^(async\s+)?function\s+(\w+)\s*\(', r'\1\2(', block, flags=re.MULTILINE)`. -/
def subFuncSigAux : Nat → List Char → Bool → List Char
  | 0, s, _ => s
  | _ + 1, [], _ => []
  | fuel + 1, c :: cs, atStart =>
    if atStart then
      match matchFuncSig (c :: cs) with
      | some (repl, rest) => repl ++ subFuncSigAux fuel rest false
      | none => c :: subFuncSigAux fuel cs (c = '\n')
    else c :: subFuncSigAux fuel cs (c = '\n')

/-- The signature-rewriting substitution. -/
def subFuncSig (s : List Char) : List Char :=
  subFuncSigAux (s.length + 1) s true

/-- Python `str.split('\n')`. -/
def splitNl : List Char → List (List Char)
  | [] => [[]]
  | c :: cs =>
    if c = '\n' then [] :: splitNl cs
    else
      match splitNl cs with
      | [] => [[c]]
      | l :: ls => (c :: l) :: ls

/-- Python `'\n'.join(lines)`. -/
def joinNl : List (List Char) → List Char
  | [] => []
  | [l] => l
  | l :: ls => l ++ '\n' :: joinNl ls

/-- `'  ' + line if line.strip() else line`. -/
def indentLine (line : List Char) : List Char :=
  if line.any (fun c => !isPySpace c) then ' ' :: ' ' :: line else line

/-- The indentation step: split the block into lines, indent each
non-blank line by two spaces, rejoin. -/
def indentBlock (s : List Char) : List Char :=
  joinNl ((splitNl s).map indentLine)

/-- A function block after keyword stripping and indentation. -/
def convertBlock (b : List Char) : List Char :=
  indentBlock (subFuncSig (subExport b))

/-- The loop's filter: `block.strip()` truthy and `block.startswith('export')`. -/
def blockKept (b : List Char) : Bool :=
  (b.any fun c => !isPySpace c) && ("export".data.isPrefixOf b)

/-- The per-block emission, with the trailing comma appended after
rstrip for every block that is not at the final index of the list. -/
def emitBlock (notLast : Bool) (b : List Char) : List Char :=
  if notLast then pyRstripList (convertBlock b) ++ [','] else convertBlock b

/-- The exception the script can raise: `None.strip()` when `re.split`
put a `None` capture group into `function_blocks`. -/
inductive PyErr where
  | attributeError
deriving DecidableEq

/-- The `for i, block in enumerate(function_blocks)` loop, producing the
list of emitted method blocks.  Hitting a `None` element raises
`AttributeError` (Python evaluates `block.strip()` before the filter can
skip it). -/
def emittedList (total : Nat) : Nat → List (Option (List Char)) → Except PyErr (List (List Char))
  | _, [] => Except.ok []
  | _, none :: _ => Except.error PyErr.attributeError
  | i, some b :: rest =>
    if blockKept b then
      match emittedList total (i + 1) rest with
      | Except.error e => Except.error e
      | Except.ok ems => Except.ok (emitBlock (decide (i < total - 1)) b :: ems)
    else emittedList total (i + 1) rest

/-- The body assembled by the loop: each emitted block followed by a
newline, concatenated. -/
def processBlocks (blocks : List (Option (List Char))) : Except PyErr (List Char) :=
  match emittedList blocks.length 0 blocks with
  | Except.error e => Except.error e
  | Except.ok ems => Except.ok ((ems.map (fun b => b ++ ['\n'])).flatten)

/-- The sequence of method blocks the loop emits when every split piece
is kept: every piece but the last is rstripped and given a trailing
comma, the last is emitted as converted, with nothing appended. -/
def emitPieces : List (List Char) → List (List Char)
  | [] => []
  | [p] => [convertBlock p]
  | p :: ps => (pyRstripList (convertBlock p) ++ [',']) :: emitPieces ps

/-- The state of the one file the converter touches. -/
structure FileSt where
  content : String
deriving DecidableEq

/-- The list `function_blocks` of the script: `re.split` applied to the
newline-prepended remaining text, flattened into Python's return shape. -/
def functionBlocksOf (remaining : List Char) : List (Option (List Char)) :=
  some (splitAux ('\n' :: remaining) []).1 :: splitItems (splitAux ('\n' :: remaining) []).2

/-- `convert_service_file(filepath, service_name)`: read the file, run
the transformation, and write the result back as the very last step.
Returns the file state after the call together with the Python outcome
(`ok false` for the no-export no-op, `ok true` for a successful
conversion, `error` for a raised exception — in which case the write was
never reached and the file is untouched). -/
def convert_service_file (st : FileSt) (service_name : String) : FileSt × Except PyErr Bool :=
  let content := st.content.data
  let exports := findallExport content
  if exports.isEmpty then (st, Except.ok false)
  else
    match searchExportStart content with
    | none => (st, Except.ok false)
    | some m =>
      let importsSection := pyRstripList (content.take m)
      let remaining := content.drop m
      match processBlocks (functionBlocksOf remaining) with
      | Except.error e => (st, Except.error e)
      | Except.ok body =>
        let newContent :=
          importsSection ++ "\n\n".data ++ "export const ".data ++ service_name.data
            ++ " = \x7b\n".data ++ body ++ "\x7d;\n".data
        (FileSt.mk (String.mk newContent), Except.ok true)

/-- The per-entry outcome the batch driver reports. -/
inductive Outcome where
  | converted (wrote : Bool)
  | failed
  | notFound
deriving DecidableEq

/-- One iteration of the driver's loop: if the file exists, run the
converter inside the `try`/`except` (the file state after the call is
written back; an exception is caught and reported); otherwise report
not-found.  The rest of the batch runs regardless. -/
def stepEntry (fs : String → Option String) (e : String × String) :
    (String → Option String) × Outcome :=
  match fs e.1 with
  | some c =>
    let r := convert_service_file (FileSt.mk c) e.2
    (fun n => if n = e.1 then some r.1.content else fs n,
     match r.2 with
     | Except.ok w => Outcome.converted w
     | Except.error _ => Outcome.failed)
  | none => (fs, Outcome.notFound)

/-- The driver's loop over the fixed table of services. -/
def runBatch (fs : String → Option String) : List (String × String) →
    (String → Option String) × List Outcome
  | [] => (fs, [])
  | e :: rest =>
    let s := stepEntry fs e
    let r := runBatch s.1 rest
    (r.1, s.2 :: r.2)

/-- The hardcoded table of (filename, object name) pairs from `main`. -/
def services_to_convert : List (String × String) :=
  [("status-service.js", "statusService"),
   ("checklist-service.js", "checklistService"),
   ("tag-service.js", "tagService"),
   ("comment-service.js", "commentService"),
   ("time-tracking-service.js", "timeTrackingService"),
   ("auth-service.js", "authService"),
   ("realtime-service.js", "realtimeService"),
   ("activity-service.js", "activityService"),
   ("space-service.js", "spaceService"),
   ("project-service.js", "projectService"),
   ("gantt-service.js", "ganttService"),
   ("dashboard-service.js", "dashboardService"),
   ("reports-service.js", "reportsService"),
   ("profile-service.js", "profileService")]

/-! ### General lemmas about the embedded primitives -/

lemma lit_self_append (pre s : List Char) : lit pre (pre ++ s) = some s := by
  induction pre with
  | nil => rfl
  | cons c cs ih => simp [lit, ih]

lemma lit_eq_append {pre s r : List Char} (h : lit pre s = some r) : s = pre ++ r := by
  induction pre generalizing s with
  | nil => simpa [lit] using h
  | cons c cs ih =>
    cases s with
    | nil => simp [lit] at h
    | cons d ds =>
      simp only [lit] at h
      split at h
      · rename_i hd
        simp [hd, ih h]
      · exact absurd h (by simp)

lemma isPrefixOf_append_self (l t : List Char) : l.isPrefixOf (l ++ t) = true := by
  induction l with
  | nil => simp [List.isPrefixOf]
  | cons c cs ih => simp [List.isPrefixOf, ih]

lemma isPrefixOf_exists {l s : List Char} (h : l.isPrefixOf s = true) : ∃ t, s = l ++ t := by
  induction l generalizing s with
  | nil => exact ⟨s, rfl⟩
  | cons c cs ih =>
    cases s with
    | nil => simp [List.isPrefixOf] at h
    | cons d ds =>
      simp only [List.isPrefixOf, Bool.and_eq_true, beq_iff_eq] at h
      obtain ⟨hcd, h2⟩ := h
      obtain ⟨t, rfl⟩ := ih h2
      exact ⟨t, by simp [hcd]⟩

lemma wordChar_not_space {c : Char} (h : isWordChar c = true) : isPySpace c = false := by
  by_contra hb
  rw [Bool.not_eq_false] at hb
  simp only [isPySpace, Bool.or_eq_true, decide_eq_true_eq] at hb
  rcases hb with ((((h1 | h1) | h1) | h1) | h1) | h1 <;>
    (subst h1; exact absurd h (by decide))

lemma wordChar_ne_nl {c : Char} (h : isWordChar c = true) : c ≠ '\n' := by
  intro e
  subst e
  exact absurd h (by decide)

lemma takeWhile_append_of_all {p : Char → Bool} {l : List Char}
    (h : ∀ x ∈ l, p x = true) (s : List Char) :
    (l ++ s).takeWhile p = l ++ s.takeWhile p := by
  induction l with
  | nil => rfl
  | cons c cs ih =>
    have hc := h c (List.mem_cons_self c cs)
    simp [List.takeWhile_cons, hc, ih (fun x hx => h x (List.mem_cons_of_mem _ hx))]

lemma dropWhile_append_of_all {p : Char → Bool} {l : List Char}
    (h : ∀ x ∈ l, p x = true) (s : List Char) :
    (l ++ s).dropWhile p = s.dropWhile p := by
  induction l with
  | nil => rfl
  | cons c cs ih =>
    have hc := h c (List.mem_cons_self c cs)
    simp [List.dropWhile_cons, hc, ih (fun x hx => h x (List.mem_cons_of_mem _ hx))]

/-! ### Lemmas about line splitting and joining -/

lemma splitNl_ne_nil (s : List Char) : splitNl s ≠ [] := by
  induction s with
  | nil => simp [splitNl]
  | cons c cs ih =>
    simp only [splitNl]
    split
    · simp
    · split <;> simp

lemma mem_splitNl_not_nl (s : List Char) : ∀ l ∈ splitNl s, '\n' ∉ l := by
  induction s with
  | nil =>
    intro l hl
    simp [splitNl] at hl
    simp [hl]
  | cons c cs ih =>
    intro l hl
    simp only [splitNl] at hl
    by_cases hc : c = '\n'
    · rw [if_pos hc] at hl
      rcases List.mem_cons.mp hl with h1 | h2
      · simp [h1]
      · exact ih l h2
    · rw [if_neg hc] at hl
      cases hsp : splitNl cs with
      | nil => exact absurd hsp (splitNl_ne_nil cs)
      | cons l0 ls =>
        rw [hsp] at hl
        rcases List.mem_cons.mp hl with h1 | h2
        · subst h1
          intro hmem
          rcases List.mem_cons.mp hmem with h3 | h4
          · exact hc h3.symm
          · exact ih l0 (by rw [hsp]; exact List.mem_cons_self l0 ls) h4
        · exact ih l (by rw [hsp]; exact List.mem_cons_of_mem l0 h2)

lemma splitNl_of_no_nl {l : List Char} (h : '\n' ∉ l) : splitNl l = [l] := by
  induction l with
  | nil => rfl
  | cons c cs ih =>
    have hc : ¬ c = '\n' := fun e => h (by rw [e]; exact List.mem_cons_self _ _)
    simp only [splitNl]
    rw [if_neg hc, ih (fun hm => h (List.mem_cons_of_mem _ hm))]

lemma splitNl_append_cons {pre : List Char} (h : '\n' ∉ pre) {s : List Char}
    {hd : List Char} {tl : List (List Char)} (hs : splitNl s = hd :: tl) :
    splitNl (pre ++ s) = (pre ++ hd) :: tl := by
  induction pre with
  | nil => simpa using hs
  | cons c cs ih =>
    have hcs := ih (fun hm => h (List.mem_cons_of_mem _ hm))
    have hc : ¬ c = '\n' := fun e => h (by rw [e]; exact List.mem_cons_self _ _)
    show splitNl (c :: (cs ++ s)) = _
    simp only [splitNl]
    rw [if_neg hc, hcs]
    simp

lemma splitNl_append_nl {l : List Char} (h : '\n' ∉ l) (t : List Char) :
    splitNl (l ++ '\n' :: t) = l :: splitNl t := by
  cases ht : splitNl ('\n' :: t) with
  | nil => exact absurd ht (splitNl_ne_nil _)
  | cons hd tl =>
    have : splitNl ('\n' :: t) = [] :: splitNl t := by simp [splitNl]
    rw [this] at ht
    rw [splitNl_append_cons h this]
    simp

lemma splitNl_joinNl : ∀ (ls : List (List Char)), ls ≠ [] →
    (∀ l ∈ ls, '\n' ∉ l) → splitNl (joinNl ls) = ls := by
  intro ls
  induction ls with
  | nil => intro h; exact absurd rfl h
  | cons l ls ih =>
    intro _ hno
    cases ls with
    | nil =>
      simpa [joinNl] using splitNl_of_no_nl (hno l (List.mem_cons_self _ _))
    | cons l2 ls2 =>
      have hj : joinNl (l :: l2 :: ls2) = l ++ '\n' :: joinNl (l2 :: ls2) := rfl
      rw [hj, splitNl_append_nl (hno l (List.mem_cons_self _ _)),
        ih (by simp) (fun x hx => hno x (List.mem_cons_of_mem _ hx))]

/-! ### Batch driver lemma -/

lemma runBatch_length (fs : String → Option String) (entries : List (String × String)) :
    ((runBatch fs entries).2).length = entries.length := by
  induction entries generalizing fs with
  | nil => rfl
  | cons e rest ih => simp [runBatch, ih]

/-! ### Lemmas about the split list and the emission loop -/

lemma splitItems_length (pairs : List (Option (List Char) × List Char)) :
    (splitItems pairs).length = 2 * pairs.length := by
  induction pairs with
  | nil => rfl
  | cons gp rest ih => simp [splitItems, ih]; omega

lemma mem_fst_splitItems {pairs : List (Option (List Char) × List Char)}
    {gp : Option (List Char) × List Char} (h : gp ∈ pairs) : gp.1 ∈ splitItems pairs := by
  induction pairs with
  | nil => exact absurd h (List.not_mem_nil _)
  | cons q rest ih =>
    rcases List.mem_cons.mp h with h1 | h2
    · rw [h1]; exact List.mem_cons_self _ _
    · exact List.mem_cons_of_mem _ (List.mem_cons_of_mem _ (ih h2))

lemma emittedList_ok_no_none {total : Nat} :
    ∀ (blocks : List (Option (List Char))) (i : Nat) (ems : List (List Char)),
      emittedList total i blocks = Except.ok ems → (none : Option (List Char)) ∉ blocks := by
  intro blocks
  induction blocks with
  | nil => intro i ems _; exact List.not_mem_nil _
  | cons b rest ih =>
    intro i ems h
    cases b with
    | none => exact absurd h (by simp [emittedList])
    | some x =>
      simp only [emittedList] at h
      split at h
      · cases hrec : emittedList total (i + 1) rest with
        | error e => rw [hrec] at h; exact absurd h (by simp)
        | ok ems' =>
          intro hmem
          rcases List.mem_cons.mp hmem with h1 | h2
          · exact Option.noConfusion h1
          · exact ih (i + 1) ems' hrec h2
      · intro hmem
        rcases List.mem_cons.mp hmem with h1 | h2
        · exact Option.noConfusion h1
        · exact ih (i + 1) ems h h2

lemma matchAsyncGroup_shape {s : List Char} {p : List Char × List Char}
    (h : matchAsyncGroup s = some p) : ∃ sp, p.1 = "async".data ++ sp := by
  unfold matchAsyncGroup at h
  split at h
  · split at h
    · rename_i sp r2 _
      exact ⟨sp, by injection h with h1; rw [← h1]⟩
    · exact Option.noConfusion h
  · exact Option.noConfusion h

lemma lookahead_group_shape {s : List Char} {g : Option (List Char)}
    (h : lookaheadSplit s = some g) :
    g = none ∨ ∃ sp, g = some ("async".data ++ sp) := by
  unfold lookaheadSplit at h
  split at h
  · exact Option.noConfusion h
  · split at h
    · exact Option.noConfusion h
    · split at h
      · rename_i ga r3 hga
        split at h
        · right
          obtain ⟨sp, hsp⟩ := matchAsyncGroup_shape hga
          have hsp' : ga = "async".data ++ sp := hsp
          injection h with h1
          exact ⟨sp, by rw [← h1, hsp']⟩
        · split at h
          · left; injection h with h1; exact h1.symm
          · exact Option.noConfusion h
      · split at h
        · left; injection h with h1; exact h1.symm
        · exact Option.noConfusion h

lemma lookahead_lit_export {s : List Char} {g : Option (List Char)}
    (h : lookaheadSplit s = some g) : ∃ r, lit "export".data s = some r := by
  unfold lookaheadSplit at h
  split at h
  · exact Option.noConfusion h
  · rename_i r hr
    exact ⟨r, hr⟩

lemma splitAux_factor (s : List Char) : ∀ acc,
    splitAux s acc = (acc.reverse ++ (splitAux s []).1, (splitAux s []).2) := by
  induction s with
  | nil => intro acc; simp [splitAux]
  | cons c cs ih =>
    intro acc
    by_cases hc : c = '\n'
    · simp only [splitAux, if_pos hc]
      cases hla : lookaheadSplit cs with
      | some g => simp
      | none => rw [ih (c :: acc), ih [c]]; simp
    · simp only [splitAux, if_neg hc]
      rw [ih (c :: acc), ih [c]]
      simp

lemma splitAux_prefix_factor {pre : List Char} (h : ∀ c ∈ pre, c ≠ '\n') (s : List Char) :
    ∀ acc, splitAux (pre ++ s) acc = splitAux s (pre.reverse ++ acc) := by
  induction pre with
  | nil => intro acc; simp
  | cons c cs ih =>
    intro acc
    have hc : ¬ c = '\n' := h c (List.mem_cons_self _ _)
    show splitAux (c :: (cs ++ s)) acc = _
    simp only [splitAux, if_neg hc]
    rw [ih (fun x hx => h x (List.mem_cons_of_mem _ hx)) (c :: acc)]
    simp

lemma splitAux_piece_export (s : List Char) : ∀ acc, ∀ gp ∈ (splitAux s acc).2,
    ("export".data).isPrefixOf gp.2 = true := by
  induction s with
  | nil => intro acc gp hgp; simp [splitAux] at hgp
  | cons c cs ih =>
    intro acc gp hgp
    by_cases hc : c = '\n'
    · simp only [splitAux, if_pos hc] at hgp
      cases hla : lookaheadSplit cs with
      | some g =>
        rw [hla] at hgp
        simp only at hgp
        rcases List.mem_cons.mp hgp with h1 | h2
        · obtain ⟨r, hr⟩ := lookahead_lit_export hla
          have hcs : cs = "export".data ++ r := lit_eq_append hr
          have hnl : ∀ x ∈ "export".data, x ≠ '\n' := by decide
          rw [h1]
          show ("export".data).isPrefixOf (splitAux cs []).1 = true
          rw [hcs, splitAux_prefix_factor hnl r [], splitAux_factor r]
          simp [isPrefixOf_append_self]
        · exact ih [] gp h2
      | none =>
        rw [hla] at hgp
        exact ih (c :: acc) gp hgp
    · simp only [splitAux, if_neg hc] at hgp
      exact ih (c :: acc) gp hgp

lemma splitAux_group_shape (s : List Char) : ∀ acc, ∀ gp ∈ (splitAux s acc).2,
    gp.1 = none ∨ ∃ sp, gp.1 = some ("async".data ++ sp) := by
  induction s with
  | nil => intro acc gp hgp; simp [splitAux] at hgp
  | cons c cs ih =>
    intro acc gp hgp
    by_cases hc : c = '\n'
    · simp only [splitAux, if_pos hc] at hgp
      cases hla : lookaheadSplit cs with
      | some g =>
        rw [hla] at hgp
        simp only at hgp
        rcases List.mem_cons.mp hgp with h1 | h2
        · rw [h1]
          exact lookahead_group_shape hla
        · exact ih [] gp h2
      | none =>
        rw [hla] at hgp
        exact ih (c :: acc) gp hgp
    · simp only [splitAux, if_neg hc] at hgp
      exact ih (c :: acc) gp hgp

lemma export_not_prefix_of_head {c : Char} (hc : ('e' == c) = false) (l : List Char) :
    ("export".data).isPrefixOf (c :: l) = false := by
  show List.isPrefixOf ('e' :: "xport".data) (c :: l) = false
  simp [List.isPrefixOf, hc]

lemma blockKept_async (sp : List Char) : blockKept ("async".data ++ sp) = false := by
  have h : "async".data ++ sp = 'a' :: ("sync".data ++ sp) := rfl
  rw [h]
  unfold blockKept
  rw [export_not_prefix_of_head (by decide)]
  exact Bool.and_false _

lemma blockKept_export_pre {b : List Char} (h : ("export".data).isPrefixOf b = true) :
    blockKept b = true := by
  obtain ⟨t, rfl⟩ := isPrefixOf_exists h
  unfold blockKept
  rw [h, Bool.and_true]
  show (('e' :: ("xport".data ++ t)).any fun c => !isPySpace c) = true
  rw [List.any_cons]
  rw [show (!isPySpace 'e') = true from rfl]
  exact Bool.true_or _

lemma firstPiece_not_kept (r : List Char) :
    blockKept (splitAux ('\n' :: r) []).1 = false := by
  simp only [splitAux, if_pos rfl]
  cases hla : lookaheadSplit r with
  | some g => simp [blockKept]
  | none =>
    rw [splitAux_factor r ['\n']]
    show blockKept (['\n'].reverse ++ (splitAux r []).1) = false
    unfold blockKept
    rw [show (['\n'].reverse ++ (splitAux r []).1) = '\n' :: (splitAux r []).1 from rfl]
    rw [export_not_prefix_of_head (by decide)]
    exact Bool.and_false _

lemma getLast?_append_single (l : List Char) (a : Char) : (l ++ [a]).getLast? = some a :=
  List.getLast?_concat l

lemma emitPieces_ne_nil {ps : List (List Char)} (h : ps ≠ []) : emitPieces ps ≠ [] := by
  cases ps with
  | nil => exact absurd rfl h
  | cons p rest =>
    cases rest with
    | nil => simp [emitPieces]
    | cons q rest2 => simp [emitPieces]

lemma emitPieces_dropLast_comma : ∀ (ps : List (List Char)),
    ∀ x ∈ (emitPieces ps).dropLast, x.getLast? = some ',' := by
  intro ps
  induction ps with
  | nil => intro x hx; simp [emitPieces] at hx
  | cons p rest ih =>
    intro x hx
    cases rest with
    | nil => simp [emitPieces] at hx
    | cons q rest2 =>
      have hsh : emitPieces (p :: q :: rest2)
          = (pyRstripList (convertBlock p) ++ [',']) :: emitPieces (q :: rest2) := rfl
      rw [hsh] at hx
      cases hep : emitPieces (q :: rest2) with
      | nil => exact absurd hep (emitPieces_ne_nil (by simp))
      | cons b l =>
        rw [hep] at hx
        simp only [List.dropLast] at hx
        rcases List.mem_cons.mp hx with h1 | h2
        · rw [h1]
          exact getLast?_append_single _ _
        · exact ih x (by rw [hep]; exact h2)

lemma emitPieces_getLast : ∀ (ps : List (List Char)) (q : List Char),
    ps.getLast? = some q → (emitPieces ps).getLast? = some (convertBlock q) := by
  intro ps
  induction ps with
  | nil => intro q h; simp at h
  | cons p rest ih =>
    intro q h
    cases rest with
    | nil =>
      simp at h
      rw [h]
      rfl
    | cons q2 rest2 =>
      rw [List.getLast?_cons_cons] at h
      have hih := ih q h
      have hsh : emitPieces (p :: q2 :: rest2)
          = (pyRstripList (convertBlock p) ++ [',']) :: emitPieces (q2 :: rest2) := rfl
      rw [hsh]
      cases hep : emitPieces (q2 :: rest2) with
      | nil => exact absurd hep (emitPieces_ne_nil (by simp))
      | cons b l =>
        rw [hep] at hih
        rw [List.getLast?_cons_cons]
        exact hih

lemma emittedList_splitItems : ∀ (pairs : List (Option (List Char) × List Char)) (i total : Nat),
    (∀ gp ∈ pairs, ∃ sp, gp.1 = some ("async".data ++ sp)) →
    (∀ gp ∈ pairs, ("export".data).isPrefixOf gp.2 = true) →
    total = i + 2 * pairs.length →
    emittedList total i (splitItems pairs)
      = Except.ok (emitPieces (pairs.map (fun gp => gp.2))) := by
  intro pairs
  induction pairs with
  | nil => intro i total _ _ _; rfl
  | cons gp rest ih =>
    intro i total h1 h2 ht
    obtain ⟨sp, hg⟩ := h1 gp (List.mem_cons_self _ _)
    have hkept : blockKept gp.2 = true := blockKept_export_pre (h2 gp (List.mem_cons_self _ _))
    show emittedList total i (gp.1 :: some gp.2 :: splitItems rest) = _
    rw [hg]
    simp only [emittedList, blockKept_async sp, Bool.false_eq_true, if_false, hkept, if_true]
    cases rest with
    | nil =>
      have hlt : decide (i + 1 < total - 1) = false := by
        apply decide_eq_false
        simp at ht
        omega
      simp only [splitItems, emittedList, hlt]
      rfl
    | cons gp2 rest2 =>
      have hrec := ih (i + 2) total
        (fun x hx => h1 x (List.mem_cons_of_mem _ hx))
        (fun x hx => h2 x (List.mem_cons_of_mem _ hx))
        (by simp at ht ⊢; omega)
      rw [hrec]
      have hlt : decide (i + 1 < total - 1) = true := by
        apply decide_eq_true
        simp at ht
        omega
      rw [hlt]
      rfl

/-! ### Claim theorems -/

/-- Claim C1 (code bug): the claim asserts that a file with N exported
functions converts to an object literal with N method entries, but for a
file whose single exported function is not `async`, `re.split` places a
`None` capture group into `function_blocks` and `block.strip()` raises
`AttributeError`: the converter raises instead of producing any output,
and the file is left unchanged. -/
theorem claim1_nonasync_export_raises :
    convert_service_file (FileSt.mk "export function foo() \x7b return 1; \x7d") "svc"
      = (FileSt.mk "export function foo() \x7b return 1; \x7d",
         Except.error PyErr.attributeError) := rfl

/-- Claim C2 (code bug): on the spec's own scenario input
`export function foo() { return 1; }\nexport async function bar() { return 2; }`
with object name `svc`, the converter does not produce the claimed object
literal: the non-async `foo` makes `re.split` emit a `None` group and the
loop raises `AttributeError`, leaving the file unchanged. -/
theorem claim2_scenario_raises :
    convert_service_file
      (FileSt.mk "export function foo() \x7b return 1; \x7d\nexport async function bar() \x7b return 2; \x7d")
      "svc"
      = (FileSt.mk "export function foo() \x7b return 1; \x7d\nexport async function bar() \x7b return 2; \x7d",
         Except.error PyErr.attributeError) := rfl

/-- Claim C3: when `re.findall` finds no export in the content, the
converter returns the no-op outcome `False` and the file keeps exactly
its old bytes — no write and no exception. -/
theorem claim3_no_export_noop (st : FileSt) (name : String)
    (h : findallExport st.content.data = []) :
    convert_service_file st name = (st, Except.ok false) := by
  simp [convert_service_file, h]

/-- Witness for claim C3 at a concrete exportless file. -/
theorem claim3_no_export_noop_witness :
    findallExport (FileSt.mk "import \x7b api \x7d from './api.js';\n").content.data = [] ∧
      convert_service_file (FileSt.mk "import \x7b api \x7d from './api.js';\n") "svc"
        = (FileSt.mk "import \x7b api \x7d from './api.js';\n", Except.ok false) :=
  ⟨rfl, claim3_no_export_noop (FileSt.mk "import \x7b api \x7d from './api.js';\n") "svc" rfl⟩

/-- Claim C7: the indentation step of every emitted block maps its lines
one-for-one: a line containing a non-whitespace character gains exactly
the two-space prefix, a blank or whitespace-only line is unchanged. -/
theorem claim7_indentation (b : List Char) :
    splitNl (convertBlock b) =
      (splitNl (subFuncSig (subExport b))).map
        (fun line => if line.any (fun c => !isPySpace c) then ' ' :: ' ' :: line else line) := by
  have h1 : (splitNl (subFuncSig (subExport b))).map indentLine ≠ [] := by
    intro hmap
    exact splitNl_ne_nil _ (List.map_eq_nil_iff.mp hmap)
  have h2 : ∀ l ∈ (splitNl (subFuncSig (subExport b))).map indentLine, '\n' ∉ l := by
    intro l hl
    obtain ⟨a, ha, rfl⟩ := List.mem_map.mp hl
    have hna := mem_splitNl_not_nl _ a ha
    unfold indentLine
    split
    · intro hm
      rcases List.mem_cons.mp hm with h3 | h3
      · exact absurd h3.symm (by decide)
      · rcases List.mem_cons.mp h3 with h4 | h4
        · exact absurd h4.symm (by decide)
        · exact hna h4
    · exact hna
  calc splitNl (convertBlock b)
      = splitNl (joinNl ((splitNl (subFuncSig (subExport b))).map indentLine)) := rfl
    _ = (splitNl (subFuncSig (subExport b))).map indentLine := splitNl_joinNl _ h1 h2
    _ = _ := rfl

/-- Claim C8: the batch driver produces one outcome per entry of the
fixed service table, processes a nonempty batch head-first and then the
rest regardless of the head's outcome, reports not-found for a missing
file, and for an existing file reports the converter's result with any
raised exception caught as a failure outcome. -/
theorem claim8_batch_driver (fs : String → Option String) :
    ((runBatch fs services_to_convert).2).length = services_to_convert.length ∧
    (∀ (g : String → Option String) (e : String × String) (rest : List (String × String)),
      (runBatch g (e :: rest)).2 = (stepEntry g e).2 :: (runBatch (stepEntry g e).1 rest).2) ∧
    (∀ (g : String → Option String) (e : String × String), g e.1 = none →
      (stepEntry g e).2 = Outcome.notFound) ∧
    (∀ (g : String → Option String) (e : String × String) (c : String), g e.1 = some c →
      (stepEntry g e).2 =
        match (convert_service_file (FileSt.mk c) e.2).2 with
        | Except.ok w => Outcome.converted w
        | Except.error _ => Outcome.failed) := by
  refine ⟨runBatch_length fs services_to_convert, fun g e rest => rfl, ?_, ?_⟩
  · intro g e h
    simp [stepEntry, h]
  · intro g e c h
    simp [stepEntry, h]

/-- Witness for claim C8: a missing file yields not-found, an existing
all-async file yields a successful conversion outcome, and the batch
yields one outcome per table entry. -/
theorem claim8_batch_driver_witness :
    (stepEntry (fun _ => none) ("status-service.js", "statusService")).2 = Outcome.notFound ∧
    (stepEntry (fun _ => some "export async function f() \x7b\x7d") ("auth-service.js", "authService")).2
      = Outcome.converted true ∧
    ((runBatch (fun _ => none) services_to_convert).2).length = 14 :=
  ⟨(claim8_batch_driver (fun _ => none)).2.2.1 _ _ rfl,
   (claim8_batch_driver (fun _ => none)).2.2.2 _ _ "export async function f() \x7b\x7d" rfl,
   (claim8_batch_driver (fun _ => none)).1⟩

/-- Claim C9: `re.findall` and `re.search` run the same engine over the
same pattern and content, so a nonempty findall result forces the search
to succeed; the `if not first_export_match: return False` branch can
never be taken when the export list was nonempty. -/
theorem claim9_search_succeeds (content : List Char) (h : findallExport content ≠ []) :
    ∃ m, searchExportStart content = some m := by
  unfold findallExport at h
  unfold searchExportStart
  cases hs : scanExports content with
  | nil => rw [hs] at h; simp at h
  | cons x xs => exact ⟨x.1, rfl⟩

/-- Witness for claim C9 at a concrete content with one export. -/
theorem claim9_search_succeeds_witness :
    findallExport ("export function f() \x7b\x7d").data ≠ [] ∧
      ∃ m, searchExportStart ("export function f() \x7b\x7d").data = some m :=
  ⟨by decide, claim9_search_succeeds ("export function f() \x7b\x7d").data (by decide)⟩

/-- Claim C4: whenever the converter succeeds and writes, the output
text is the rstripped preamble (all bytes before the first export
match), a blank line, and the object-literal header, followed by the
rest; and a successful write presupposes a nonempty findall result. -/
theorem claim4_preamble_preserved (st : FileSt) (name : String) (out : FileSt)
    (h : convert_service_file st name = (out, Except.ok true)) :
    findallExport st.content.data ≠ [] ∧
    ∃ m tail, searchExportStart st.content.data = some m ∧
      out.content.data =
        pyRstripList (st.content.data.take m) ++ "\n\n".data ++ "export const ".data
          ++ name.data ++ " = \x7b\n".data ++ tail := by
  simp only [convert_service_file] at h
  split at h
  · exact absurd h (by simp)
  · rename_i hemp
    constructor
    · intro hnil
      exact hemp (by simp [hnil])
    · split at h
      · exact absurd h (by simp)
      · rename_i m hm
        split at h
        · exact absurd h (by simp)
        · rename_i body hb
          injection h with h1 h2
          refine ⟨m, body ++ "\x7d;\n".data, hm, ?_⟩
          rw [← h1]
          simp [List.append_assoc]

/-- Witness for claim C4 at a concrete one-function all-async file. -/
theorem claim4_preamble_preserved_witness :
    findallExport ("export async function a() \x7b return 1; \x7d").data ≠ [] ∧
    ∃ m tail, searchExportStart ("export async function a() \x7b return 1; \x7d").data = some m ∧
      ("\n\nexport const svc = \x7b\n  async a() \x7b return 1; \x7d\n\x7d;\n").data =
        pyRstripList (("export async function a() \x7b return 1; \x7d").data.take m)
          ++ "\n\n".data ++ "export const ".data ++ "svc".data ++ " = \x7b\n".data ++ tail :=
  claim4_preamble_preserved
    (FileSt.mk "export async function a() \x7b return 1; \x7d") "svc"
    (FileSt.mk "\n\nexport const svc = \x7b\n  async a() \x7b return 1; \x7d\n\x7d;\n") rfl

/-- Claim C5: in a successful conversion the loop's emitted method
blocks are exactly one per split piece; every emitted block except the
final one is the rstripped converted piece with a trailing comma
appended (so it ends in a comma), and the final block is the converted
final piece with nothing appended. -/
theorem claim5_trailing_commas (st : FileSt) (name : String) (out : FileSt)
    (h : convert_service_file st name = (out, Except.ok true)) :
    ∃ m ems,
      searchExportStart st.content.data = some m ∧
      emittedList (functionBlocksOf (st.content.data.drop m)).length 0
          (functionBlocksOf (st.content.data.drop m)) = Except.ok ems ∧
      ems = emitPieces (((splitAux ('\n' :: st.content.data.drop m) []).2).map
        (fun gp => gp.2)) ∧
      (∀ x ∈ ems.dropLast, x.getLast? = some ',') ∧
      (∀ q, (((splitAux ('\n' :: st.content.data.drop m) []).2).map
          (fun gp => gp.2)).getLast? = some q →
        ems.getLast? = some (convertBlock q)) := by
  simp only [convert_service_file] at h
  split at h
  · exact absurd h (by simp)
  · split at h
    · exact absurd h (by simp)
    · rename_i m hm
      split at h
      · exact absurd h (by simp)
      · rename_i body hb
        unfold processBlocks at hb
        cases he : emittedList (functionBlocksOf (st.content.data.drop m)).length 0
            (functionBlocksOf (st.content.data.drop m)) with
        | error e => rw [he] at hb; exact absurd hb (by simp)
        | ok ems =>
          have hnone := emittedList_ok_no_none _ _ _ he
          have hg : ∀ gp ∈ (splitAux ('\n' :: st.content.data.drop m) []).2,
              ∃ sp, gp.1 = some ("async".data ++ sp) := by
            intro gp hgp
            rcases splitAux_group_shape ('\n' :: st.content.data.drop m) [] gp hgp with
              h0 | hs
            · exact absurd (List.mem_cons_of_mem _ (h0 ▸ mem_fst_splitItems hgp)) hnone
            · exact hs
          have hp : ∀ gp ∈ (splitAux ('\n' :: st.content.data.drop m) []).2,
              ("export".data).isPrefixOf gp.2 = true :=
            splitAux_piece_export ('\n' :: st.content.data.drop m) []
          have hmain := emittedList_splitItems
            ((splitAux ('\n' :: st.content.data.drop m) []).2)
            1 (functionBlocksOf (st.content.data.drop m)).length hg hp
            (by
              show (functionBlocksOf (st.content.data.drop m)).length = _
              unfold functionBlocksOf
              rw [List.length_cons, splitItems_length]
              omega)
          have hskip : emittedList (functionBlocksOf (st.content.data.drop m)).length 0
              (functionBlocksOf (st.content.data.drop m))
              = emittedList (functionBlocksOf (st.content.data.drop m)).length 1
                (splitItems (splitAux ('\n' :: st.content.data.drop m) []).2) := by
            show emittedList _ 0 (some (splitAux ('\n' :: st.content.data.drop m) []).1
              :: splitItems (splitAux ('\n' :: st.content.data.drop m) []).2) = _
            simp only [emittedList, firstPiece_not_kept, Bool.false_eq_true, if_false]
          have hems : ems = emitPieces (((splitAux ('\n' :: st.content.data.drop m) []).2).map
              (fun gp => gp.2)) := by
            have := he
            rw [hskip, hmain] at this
            exact (Except.ok.inj this).symm
          refine ⟨m, ems, hm, he, hems, ?_, ?_⟩
          · intro x hx
            rw [hems] at hx
            exact emitPieces_dropLast_comma _ x hx
          · intro q hq
            rw [hems]
            exact emitPieces_getLast _ q hq

/-- Witness for claim C5 at a concrete two-function all-async file. -/
theorem claim5_trailing_commas_witness :
    ∃ m ems,
      searchExportStart ("export async function a() \x7b return 1; \x7d\nexport async function b() \x7b return 2; \x7d").data = some m ∧
      emittedList (functionBlocksOf (("export async function a() \x7b return 1; \x7d\nexport async function b() \x7b return 2; \x7d").data.drop m)).length 0
          (functionBlocksOf (("export async function a() \x7b return 1; \x7d\nexport async function b() \x7b return 2; \x7d").data.drop m)) = Except.ok ems ∧
      ems = emitPieces (((splitAux ('\n' :: ("export async function a() \x7b return 1; \x7d\nexport async function b() \x7b return 2; \x7d").data.drop m) []).2).map
        (fun gp => gp.2)) ∧
      (∀ x ∈ ems.dropLast, x.getLast? = some ',') ∧
      (∀ q, (((splitAux ('\n' :: ("export async function a() \x7b return 1; \x7d\nexport async function b() \x7b return 2; \x7d").data.drop m) []).2).map
          (fun gp => gp.2)).getLast? = some q →
        ems.getLast? = some (convertBlock q)) :=
  claim5_trailing_commas
    (FileSt.mk "export async function a() \x7b return 1; \x7d\nexport async function b() \x7b return 2; \x7d")
    "svc"
    (FileSt.mk "\n\nexport const svc = \x7b\n  async a() \x7b return 1; \x7d,\n  async b() \x7b return 2; \x7d\n\x7d;\n")
    rfl

/-- Claim C10: if the transformation raises after the read and before the
final write, the file content is unchanged: the write to the file is the
last step of the conversion, so an error outcome leaves the state as it
was. -/
theorem claim10_error_leaves_file (st : FileSt) (name : String) (e : PyErr)
    (h : (convert_service_file st name).2 = Except.error e) :
    (convert_service_file st name).1 = st := by
  rcases hr : convert_service_file st name with ⟨st', r⟩
  rw [hr] at h
  have h' : r = Except.error e := h
  subst h'
  show st' = st
  simp only [convert_service_file] at hr
  split at hr
  · simp at hr
  · split at hr
    · simp at hr
    · split at hr
      · injection hr with h1 h2
        exact h1.symm
      · injection hr with h1 h2
        exact Except.noConfusion h2

/-- Witness for claim C10: the exception raised on a non-async export
leaves the concrete file untouched. -/
theorem claim10_error_leaves_file_witness :
    (convert_service_file (FileSt.mk "export function g() \x7b\x7d") "svc").2
      = Except.error PyErr.attributeError ∧
    (convert_service_file (FileSt.mk "export function g() \x7b\x7d") "svc").1
      = FileSt.mk "export function g() \x7b\x7d" :=
  ⟨rfl, claim10_error_leaves_file _ _ PyErr.attributeError rfl⟩

/-! ### Lemmas for the keyword-stripping substitutions -/

lemma subExportAux_step {fuel : Nat} {c : Char} {cs sp rest : List Char}
    (h : matchExportSp (c :: cs) = some (sp, rest)) :
    subExportAux (fuel + 1) (c :: cs) true = subExportAux fuel rest (sp.getLast? = some '\n') := by
  simp [subExportAux, h]

lemma subFuncSigAux_step {fuel : Nat} {c : Char} {cs repl rest : List Char}
    (h : matchFuncSig (c :: cs) = some (repl, rest)) :
    subFuncSigAux (fuel + 1) (c :: cs) true = repl ++ subFuncSigAux fuel rest false := by
  simp [subFuncSigAux, h]

lemma subExportAux_copy : ∀ (span : List Char) (fuel : Nat) (s : List Char),
    (∀ c ∈ span, c ≠ '\n') → span.length ≤ fuel →
    subExportAux fuel (span ++ s) false = span ++ subExportAux (fuel - span.length) s false := by
  intro span
  induction span with
  | nil => intro fuel s _ _; simp
  | cons c sp ih =>
    intro fuel s h hlen
    cases fuel with
    | zero => simp at hlen
    | succ f =>
      have hc : c ≠ '\n' := h c (List.mem_cons_self _ _)
      have hlen' : sp.length ≤ f := by simp at hlen; omega
      show subExportAux (f + 1) (c :: (sp ++ s)) false = _
      simp only [subExportAux, decide_eq_false hc]
      rw [ih f s (fun x hx => h x (List.mem_cons_of_mem _ hx)) hlen']
      simp [Nat.succ_sub_succ]

lemma matchFromFunction_canonical {name : List Char} (hne : name ≠ [])
    (hword : ∀ c ∈ name, isWordChar c = true) (t : List Char) :
    matchFromFunction ("function ".data ++ (name ++ ('(' :: t))) = some (name, t) := by
  obtain ⟨n0, nt, rfl⟩ := List.exists_cons_of_ne_nil hne
  have hn0 : ¬ (isPySpace n0 = true) := by
    simp [wordChar_not_space (hword n0 (List.mem_cons_self _ _))]
  have h1 : lit "function".data ("function ".data ++ ((n0 :: nt) ++ ('(' :: t)))
      = some (' ' :: ((n0 :: nt) ++ ('(' :: t))) := lit_self_append _ _
  have h2 : spaces1 (' ' :: ((n0 :: nt) ++ ('(' :: t))) = some ([' '], (n0 :: nt) ++ ('(' :: t)) := by
    show some (' ' :: List.takeWhile isPySpace (n0 :: (nt ++ ('(' :: t))),
        List.dropWhile isPySpace (n0 :: (nt ++ ('(' :: t))))
      = some ([' '], (n0 :: nt) ++ ('(' :: t))
    rw [List.takeWhile_cons_of_neg hn0, List.dropWhile_cons_of_neg hn0]
    rfl
  have h3 : List.takeWhile isWordChar ((n0 :: nt) ++ ('(' :: t)) = n0 :: nt := by
    rw [takeWhile_append_of_all hword,
      List.takeWhile_cons_of_neg (show ¬ (isWordChar '(' = true) by decide)]
    simp
  have h4 : List.dropWhile isWordChar ((n0 :: nt) ++ ('(' :: t)) = '(' :: t := by
    rw [dropWhile_append_of_all hword,
      List.dropWhile_cons_of_neg (show ¬ (isWordChar '(' = true) by decide)]
  have h5 : List.dropWhile isPySpace ('(' :: t) = '(' :: t :=
    List.dropWhile_cons_of_neg (show ¬ (isPySpace '(' = true) by decide)
  simp only [matchFromFunction, h1, h2, h3, h4, h5]
  simp

lemma matchFuncSig_noasync {name : List Char} (hne : name ≠ [])
    (hword : ∀ c ∈ name, isWordChar c = true) (t : List Char) :
    matchFuncSig ("function ".data ++ (name ++ ('(' :: t))) = some (name ++ ['('], t) := by
  have hmg : matchAsyncGroup ("function ".data ++ (name ++ ('(' :: t))) = none := rfl
  simp only [matchFuncSig, hmg, matchFromFunction_canonical hne hword t]

lemma matchFuncSig_async {name : List Char} (hne : name ≠ [])
    (hword : ∀ c ∈ name, isWordChar c = true) (t : List Char) :
    matchFuncSig ("async function ".data ++ (name ++ ('(' :: t)))
      = some ("async ".data ++ name ++ ['('], t) := by
  have hmg : matchAsyncGroup ("async function ".data ++ (name ++ ('(' :: t)))
      = some ("async ".data, "function ".data ++ (name ++ ('(' :: t))) := rfl
  simp only [matchFuncSig, hmg, matchFromFunction_canonical hne hword t]

lemma joinNl_cons_exists (x : List Char) (xs : List (List Char)) :
    ∃ u, joinNl (x :: xs) = x ++ u := by
  cases xs with
  | nil => exact ⟨[], by simp [joinNl]⟩
  | cons y ys => exact ⟨'\n' :: joinNl (y :: ys), rfl⟩

lemma indentBlock_first_line {pre : List Char} (hnl : '\n' ∉ pre)
    (hany : pre.any (fun c => !isPySpace c) = true) (s : List Char) :
    ∃ u, indentBlock (pre ++ s) = ' ' :: ' ' :: (pre ++ u) := by
  cases hs : splitNl s with
  | nil => exact absurd hs (splitNl_ne_nil s)
  | cons hd tl =>
    have h1 : splitNl (pre ++ s) = (pre ++ hd) :: tl := splitNl_append_cons hnl hs
    have h2 : indentLine (pre ++ hd) = ' ' :: ' ' :: (pre ++ hd) := by
      unfold indentLine
      rw [if_pos]
      rw [List.any_append, hany, Bool.true_or]
    obtain ⟨u, hu⟩ := joinNl_cons_exists (' ' :: ' ' :: (pre ++ hd)) ((tl).map indentLine)
    refine ⟨hd ++ u, ?_⟩
    unfold indentBlock
    rw [h1, List.map_cons, h2, hu]
    simp [List.append_assoc]

lemma convert_canonical_noasync {name : List Char} (rest : List Char) (hne : name ≠ [])
    (hword : ∀ c ∈ name, isWordChar c = true) :
    (∃ t, subFuncSig (subExport ("export function ".data ++ (name ++ ('(' :: rest))))
        = name ++ ('(' :: t)) ∧
    (∃ u, convertBlock ("export function ".data ++ (name ++ ('(' :: rest)))
        = ' ' :: ' ' :: (name ++ ('(' :: u))) := by
  have l1 : ("export function ".data).length = 16 := rfl
  have l2 : ("function ".data).length = 9 := rfl
  have lX : ("export function ".data ++ (name ++ ('(' :: rest))).length
      = 16 + (name.length + (rest.length + 1)) := by
    simp [List.length_append]
    omega
  have hm : matchExportSp ("export function ".data ++ (name ++ ('(' :: rest)))
      = some ([' '], "function ".data ++ (name ++ ('(' :: rest))) := rfl
  have hsub : subExport ("export function ".data ++ (name ++ ('(' :: rest)))
      = subExportAux (("export function ".data ++ (name ++ ('(' :: rest))).length)
          ("function ".data ++ (name ++ ('(' :: rest))) false := subExportAux_step hm
  have hc1 : subExportAux (("export function ".data ++ (name ++ ('(' :: rest))).length)
        ("function ".data ++ (name ++ ('(' :: rest))) false
      = "function ".data ++ subExportAux
          (("export function ".data ++ (name ++ ('(' :: rest))).length - 9)
          (name ++ ('(' :: rest)) false :=
    subExportAux_copy ("function ".data) _ _ (by decide) (by simp [l2, lX])
  have hc2 : subExportAux (("export function ".data ++ (name ++ ('(' :: rest))).length - 9)
        (name ++ ('(' :: rest)) false
      = name ++ subExportAux
          (("export function ".data ++ (name ++ ('(' :: rest))).length - 9 - name.length)
          ('(' :: rest) false :=
    subExportAux_copy name _ _ (fun c hc => wordChar_ne_nl (hword c hc)) (by simp [lX]; omega)
  have hc3 : subExportAux
        (("export function ".data ++ (name ++ ('(' :: rest))).length - 9 - name.length)
        ('(' :: rest) false
      = '(' :: subExportAux
          (("export function ".data ++ (name ++ ('(' :: rest))).length - 9 - name.length - 1)
          rest false :=
    subExportAux_copy ['('] _ rest (by decide) (by simp [lX]; omega)
  obtain ⟨t0, ht0⟩ : ∃ t0, subExport ("export function ".data ++ (name ++ ('(' :: rest)))
      = "function ".data ++ (name ++ ('(' :: t0)) := ⟨_, by rw [hsub, hc1, hc2, hc3]⟩
  have hfs := matchFuncSig_noasync hne hword t0
  have hsf : subFuncSig ("function ".data ++ (name ++ ('(' :: t0)))
      = (name ++ ['(']) ++ subFuncSigAux
          (("function ".data ++ (name ++ ('(' :: t0))).length) t0 false :=
    subFuncSigAux_step hfs
  have hnl : '\n' ∉ name ++ ['('] := by
    intro hm2
    rcases List.mem_append.mp hm2 with h1 | h1
    · exact absurd (hword _ h1) (by decide)
    · simp at h1
  have hany : (name ++ ['(']).any (fun c => !isPySpace c) = true := by
    obtain ⟨n0, nt, rfl⟩ := List.exists_cons_of_ne_nil hne
    show ((n0 :: nt) ++ ['(']).any (fun c => !isPySpace c) = true
    rw [List.cons_append, List.any_cons]
    simp [wordChar_not_space (hword n0 (List.mem_cons_self _ _))]
  constructor
  · refine ⟨subFuncSigAux (("function ".data ++ (name ++ ('(' :: t0))).length) t0 false, ?_⟩
    rw [ht0, hsf]
    simp only [List.append_assoc, List.singleton_append]
  · obtain ⟨u, hu⟩ := indentBlock_first_line hnl hany
      (subFuncSigAux (("function ".data ++ (name ++ ('(' :: t0))).length) t0 false)
    refine ⟨u, ?_⟩
    show indentBlock (subFuncSig (subExport ("export function ".data ++ (name ++ ('(' :: rest))))) = _
    rw [ht0, hsf, hu]
    simp only [List.append_assoc, List.singleton_append]

lemma convert_canonical_async {name : List Char} (rest : List Char) (hne : name ≠ [])
    (hword : ∀ c ∈ name, isWordChar c = true) :
    (∃ t, subFuncSig (subExport ("export async function ".data ++ (name ++ ('(' :: rest))))
        = "async ".data ++ (name ++ ('(' :: t))) ∧
    (∃ u, convertBlock ("export async function ".data ++ (name ++ ('(' :: rest)))
        = ' ' :: ' ' :: ("async ".data ++ (name ++ ('(' :: u)))) := by
  have l1 : ("export async function ".data).length = 22 := rfl
  have l2 : ("async function ".data).length = 15 := rfl
  have lX : ("export async function ".data ++ (name ++ ('(' :: rest))).length
      = 22 + (name.length + (rest.length + 1)) := by
    simp [List.length_append]
    omega
  have hm : matchExportSp ("export async function ".data ++ (name ++ ('(' :: rest)))
      = some ([' '], "async function ".data ++ (name ++ ('(' :: rest))) := rfl
  have hsub : subExport ("export async function ".data ++ (name ++ ('(' :: rest)))
      = subExportAux (("export async function ".data ++ (name ++ ('(' :: rest))).length)
          ("async function ".data ++ (name ++ ('(' :: rest))) false := subExportAux_step hm
  have hc1 : subExportAux (("export async function ".data ++ (name ++ ('(' :: rest))).length)
        ("async function ".data ++ (name ++ ('(' :: rest))) false
      = "async function ".data ++ subExportAux
          (("export async function ".data ++ (name ++ ('(' :: rest))).length - 15)
          (name ++ ('(' :: rest)) false :=
    subExportAux_copy ("async function ".data) _ _ (by decide) (by simp [l2, lX])
  have hc2 : subExportAux
        (("export async function ".data ++ (name ++ ('(' :: rest))).length - 15)
        (name ++ ('(' :: rest)) false
      = name ++ subExportAux
          (("export async function ".data ++ (name ++ ('(' :: rest))).length - 15 - name.length)
          ('(' :: rest) false :=
    subExportAux_copy name _ _ (fun c hc => wordChar_ne_nl (hword c hc)) (by simp [lX]; omega)
  have hc3 : subExportAux
        (("export async function ".data ++ (name ++ ('(' :: rest))).length - 15 - name.length)
        ('(' :: rest) false
      = '(' :: subExportAux
          (("export async function ".data ++ (name ++ ('(' :: rest))).length - 15 - name.length - 1)
          rest false :=
    subExportAux_copy ['('] _ rest (by decide) (by simp [lX]; omega)
  obtain ⟨t0, ht0⟩ : ∃ t0, subExport ("export async function ".data ++ (name ++ ('(' :: rest)))
      = "async function ".data ++ (name ++ ('(' :: t0)) := ⟨_, by rw [hsub, hc1, hc2, hc3]⟩
  have hfs := matchFuncSig_async hne hword t0
  have hsf : subFuncSig ("async function ".data ++ (name ++ ('(' :: t0)))
      = ("async ".data ++ name ++ ['(']) ++ subFuncSigAux
          (("async function ".data ++ (name ++ ('(' :: t0))).length) t0 false :=
    subFuncSigAux_step hfs
  have hnl : '\n' ∉ "async ".data ++ name ++ ['('] := by
    intro hm2
    rcases List.mem_append.mp hm2 with h1 | h1
    · rcases List.mem_append.mp h1 with h2 | h2
      · exact absurd h2 (by decide)
      · exact absurd (hword _ h2) (by decide)
    · simp at h1
  have hany : ("async ".data ++ name ++ ['(']).any (fun c => !isPySpace c) = true := by
    show (('a' :: ("sync ".data ++ name)) ++ ['(']).any (fun c => !isPySpace c) = true
    rw [List.cons_append, List.any_cons, show (!isPySpace 'a') = true from rfl, Bool.true_or]
  constructor
  · refine ⟨subFuncSigAux (("async function ".data ++ (name ++ ('(' :: t0))).length) t0 false, ?_⟩
    rw [ht0, hsf]
    simp only [List.append_assoc, List.singleton_append]
  · obtain ⟨u, hu⟩ := indentBlock_first_line hnl hany
      (subFuncSigAux (("async function ".data ++ (name ++ ('(' :: t0))).length) t0 false)
    refine ⟨u, ?_⟩
    show indentBlock (subFuncSig (subExport
      ("export async function ".data ++ (name ++ ('(' :: rest))))) = _
    rw [ht0, hsf, hu]
    simp only [List.append_assoc, List.singleton_append]

/-- Claim C6: for a canonical exported signature, the two substitutions
drop the `export` and `function` keywords: `export function name(` is
rewritten so the converted text begins with `name(`, and
`export async function name(` so it begins with `async name(` — the
async marker is kept, and neither `export` nor `function` precedes the
name in the emitted method block (whose first line carries the two-space
indent). -/
theorem claim6_keyword_stripping (name rest : List Char) (hne : name ≠ [])
    (hword : ∀ c ∈ name, isWordChar c = true) :
    (∃ t, subFuncSig (subExport ("export function ".data ++ (name ++ ('(' :: rest))))
        = name ++ ('(' :: t)) ∧
    (∃ u, convertBlock ("export function ".data ++ (name ++ ('(' :: rest)))
        = ' ' :: ' ' :: (name ++ ('(' :: u))) ∧
    (∃ t, subFuncSig (subExport ("export async function ".data ++ (name ++ ('(' :: rest))))
        = "async ".data ++ (name ++ ('(' :: t))) ∧
    (∃ u, convertBlock ("export async function ".data ++ (name ++ ('(' :: rest)))
        = ' ' :: ' ' :: ("async ".data ++ (name ++ ('(' :: u)))) := by
  obtain ⟨h1, h2⟩ := convert_canonical_noasync rest hne hword
  obtain ⟨h3, h4⟩ := convert_canonical_async rest hne hword
  exact ⟨h1, h2, h3, h4⟩

/-- Witness for claim C6 at the concrete name `foo`. -/
theorem claim6_keyword_stripping_witness :
    (∃ t, subFuncSig (subExport ("export function ".data ++ ("foo".data ++ ('(' :: ") \x7b return 1; \x7d".data))))
        = "foo".data ++ ('(' :: t)) ∧
    (∃ u, convertBlock ("export function ".data ++ ("foo".data ++ ('(' :: ") \x7b return 1; \x7d".data)))
        = ' ' :: ' ' :: ("foo".data ++ ('(' :: u))) ∧
    (∃ t, subFuncSig (subExport ("export async function ".data ++ ("foo".data ++ ('(' :: ") \x7b return 1; \x7d".data))))
        = "async ".data ++ ("foo".data ++ ('(' :: t))) ∧
    (∃ u, convertBlock ("export async function ".data ++ ("foo".data ++ ('(' :: ") \x7b return 1; \x7d".data)))
        = ' ' :: ' ' :: ("async ".data ++ ("foo".data ++ ('(' :: u)))) :=
  claim6_keyword_stripping "foo".data (") \x7b return 1; \x7d".data) (by decide) (by decide)

end ConvertServices
